import Mathlib

/-!
Verification of the `@font-face` rule module (`src/rules/font_face.rs`) of
the parcel-css repository.

The module is embedded shallowly:

* pure bit-level code (the `UnicodeRange` serializer) becomes functions on
  `Nat`, matching the `u32` arithmetic of the source (all values involved
  are below `2^32`, and the one use of `u32` complement is written as
  `^^^ 0xFFFFFFFF`, which agrees with the machine complement on that range);
* the token cursor of the external `cssparser` crate becomes an explicit
  state (a list of located tokens), with `try_parse` rewinding modelled by
  the caller reusing the pre-attempt state;
* the output writer (`Printer`) becomes a configuration record
  (minification flag and indent level), with each `to_css` function
  returning the text it writes — the source only ever appends.

External collaborators (the `cssparser` primitives, the `Printer`, and the
value grammars of other modules of the repository) are modelled from the
specification and are marked as such in their doc comments.
-/

namespace FontFace

/-! ### Hexadecimal text -/

/-- Upper-case hex digit for a value below 16, as produced by the Rust
format specifier of the `write!` calls in the source. -/
def hexDigitChar (n : Nat) : Char :=
  if n < 10 then Char.ofNat (48 + n) else Char.ofNat (55 + n)

/-- Hex digits (most significant first) of `n`, with explicit fuel so the
definition is structurally recursive; `toHexCore` instantiates the fuel. -/
def toHexCoreAux : Nat → Nat → List Char
  | 0, _ => []
  | fuel + 1, n =>
    if n = 0 then [] else toHexCoreAux fuel (n / 16) ++ [hexDigitChar (n % 16)]

/-- Hex digits (most significant first) of `n`; empty for `0`.  Together
with the `0` special case below this embeds Rust `{:X}` formatting. -/
def toHexCore (n : Nat) : List Char := toHexCoreAux n n

/-- Rust `{:X}` formatting of a `u32`: upper-case hex, no leading zeros,
`"0"` for zero. -/
def toHexChars (n : Nat) : List Char :=
  if n = 0 then ['0'] else toHexCore n

/-- Value of one hex digit character (either case), if any. -/
def hexDigitVal (c : Char) : Option Nat :=
  if 48 ≤ c.toNat ∧ c.toNat ≤ 57 then some (c.toNat - 48)
  else if 65 ≤ c.toNat ∧ c.toNat ≤ 70 then some (c.toNat - 55)
  else if 97 ≤ c.toNat ∧ c.toNat ≤ 102 then some (c.toNat - 87)
  else none

def isHexDigit (c : Char) : Bool := (hexDigitVal c).isSome

/-- Accumulating hex reader: value of `acc` followed by the digits `cs`. -/
def parseHexAux : List Char → Nat → Option Nat
  | [], acc => some acc
  | c :: rest, acc =>
    match hexDigitVal c with
    | some d => parseHexAux rest (acc * 16 + d)
    | none => none

/-! ### The `UnicodeRange` data type and its serializer (from the source) -/

/-- `UnicodeRange` of the source: inclusive code-point pair.  The second
field is called `end` in the source; `end` is a Lean keyword, so the
guillemet spelling is used. -/
structure UnicodeRange where
  start : Nat
  «end» : Nat
deriving DecidableEq, Repr

/-- The scan loop of `UnicodeRange::to_css`: starting at `shift = 24` and
stepping down by 4, return the first `shift` whose 4-bit window of `start`
and `end` differs, or `0` if none differs down to `shift = 4`.  The fuel
argument `n` stands for `shift / 4`, so the initial call is at `6`. -/
def findShiftAux (s e : Nat) : Nat → Nat
  | 0 => 0
  | n + 1 =>
    if s &&& (15 <<< (4 * (n + 1))) ≠ e &&& (15 <<< (4 * (n + 1))) then 4 * (n + 1)
    else findShiftAux s e n

/-- The `'?'`-emitting loop of `UnicodeRange::to_css`: one question mark
per 4 bits of `shift`. -/
def qmarks : Nat → List Char
  | 0 => []
  | 1 => ['?']
  | 2 => ['?']
  | 3 => ['?']
  | n + 4 => '?' :: qmarks n

/-- `UnicodeRange::to_css` (font_face.rs lines 365-416), producing the
written characters.  `4294967295 ^^^ m` is the `u32` complement `!m` of
the source. -/
def unicodeRangeToCssChars (r : UnicodeRange) : List Char :=
  (if r.start ≠ r.«end» then
    let shift := findShiftAux r.start r.«end» 6 + 4
    let remainder_mask := (1 <<< shift) - 1
    let start_remainder := r.start &&& remainder_mask
    let end_remainder := r.«end» &&& remainder_mask
    if start_remainder = 0 ∧ end_remainder = remainder_mask then
      let start := (r.start &&& (4294967295 ^^^ remainder_mask)) >>> shift
      (if start ≠ 0 then ['U', '+'] ++ toHexChars start else ['U', '+']) ++ qmarks shift
    else
      ['U', '+'] ++ toHexChars r.start ++
        (if r.«end» ≠ r.start then '-' :: toHexChars r.«end» else [])
  else
    ['U', '+'] ++ toHexChars r.start ++
      (if r.«end» ≠ r.start then '-' :: toHexChars r.«end» else []))

/-- The serializer as a string. -/
def unicodeRangeToCss (r : UnicodeRange) : String :=
  String.mk (unicodeRangeToCssChars r)

/-! ### The unicode-range parser

`UnicodeRange::parse` in the source delegates to
`cssparser::UnicodeRange::parse`, which is not part of this repository. -/

/-- Modelled from the spec: the body (after `U+`) of the external
`cssparser` code-point-range primitive that `UnicodeRange::parse`
delegates to.  A run of hex digits followed by: nothing (single code
point), `-` and a second hex run (explicit range), or a run of `?`
wildcards (each `?` ranges over one hex digit, so the pair is
`prefix·16^k` to `prefix·16^k + 16^k - 1`).  The tokenizer's six-digit
length cap is omitted: it does not affect values within the guaranteed
`[0, 0x10FFFF]` range. -/
def parseURBody (cs : List Char) : Option UnicodeRange :=
  let ds := cs.takeWhile isHexDigit
  let rest := cs.dropWhile isHexDigit
  match parseHexAux ds 0 with
  | none => none
  | some v =>
    if rest = [] then
      if ds = [] then none else some ⟨v, v⟩
    else if rest.all (· == '?') then
      some ⟨v * 16 ^ rest.length, v * 16 ^ rest.length + (16 ^ rest.length - 1)⟩
    else
      match rest with
      | '-' :: ds2 =>
        if ds2 ≠ [] ∧ ds2.all isHexDigit then
          match parseHexAux ds2 0 with
          | some v2 => some ⟨v, v2⟩
          | none => none
        else none
      | _ => none

/-- Modelled from the spec: the external code-point-range primitive.  It
requires the `U+` (or `u+`) prefix and, per the spec, "already guarantees
`start ≤ end` and both within `[0, 0x10FFFF]`" — pairs outside that
guarantee are rejected. -/
def parseUnicodeRange (s : String) : Option UnicodeRange :=
  match s.data with
  | 'U' :: '+' :: rest =>
    match parseURBody rest with
    | some r => if r.start ≤ r.«end» ∧ r.«end» ≤ 0x10FFFF then some r else none
    | none => none
  | 'u' :: '+' :: rest =>
    match parseURBody rest with
    | some r => if r.start ≤ r.«end» ∧ r.«end» ≤ 0x10FFFF then some r else none
    | none => none
  | _ => none

/-! ### Spec-side restatement of the wildcard compression (claim C1) -/

/-- From the claim: `p'`, "one 4-bit window above the most significant hex
digit where start and end differ".  The most significant differing hex
digit of two distinct values is window `log2 (start ^^^ end) / 4`. -/
def specShift (s e : Nat) : Nat := 4 * (Nat.log2 (s ^^^ e) / 4) + 4

/-- The serialization of a `start ≠ end` range as the claim words it: the
wildcard form exactly when the low `p'` bits of `start` are all zero and
the low `p'` bits of `end` are all one, the plain form otherwise. -/
def unicodeRangeSpecCss (s e : Nat) : String :=
  let p := specShift s e
  if s % 2 ^ p = 0 ∧ e % 2 ^ p = 2 ^ p - 1 then
    String.mk (['U', '+'] ++
      (if s >>> p = 0 then [] else toHexChars (s >>> p)) ++
      List.replicate (p / 4) '?')
  else
    String.mk (['U', '+'] ++ toHexChars s ++ '-' :: toHexChars e)

/-! ### Token-level model of the external `cssparser` cursor

The source parses through `cssparser::Parser`.  The model uses a tree of
component values (a `function` token carries its already-delimited
arguments, as `parse_nested_block` would deliver them), each carrying the
source location the cursor reports right after consuming it, and an
explicit cursor state. -/

structure SrcLoc where
  line : Nat
  column : Nat
deriving DecidableEq, Repr

inductive CTok where
  | ident (s : String)
  | str (s : String)
  | urlTok (s : String)
  | num (n : Int)
  | comma
  | unicodeRangeTok (a b : Nat)
  | function (name : String) (args : List (CTok × SrcLoc))

def CTok.isComma : CTok → Bool
  | .comma => true
  | _ => false

/-- Cursor state: remaining located tokens plus the current source
location (what `current_source_location` reports). -/
structure PState where
  toks : List (CTok × SrcLoc)
  loc : SrcLoc

/-- The `cssparser` error kinds the module can produce. -/
inductive PErrKind where
  | atRuleBodyInvalid
  | unexpectedToken (t : CTok)
  | endOfInput

structure PErr where
  kind : PErrKind
  location : SrcLoc

/-- Modelled from the spec: the token cursor's `next` — pop one token,
advancing the reported location to that token's position. -/
def pNext (st : PState) : Except PErr ((CTok × SrcLoc) × PState) :=
  match st.toks with
  | [] => .error ⟨.endOfInput, st.loc⟩
  | t :: rest => .ok (t, ⟨rest, t.2⟩)

/-- ASCII lower-casing, as used by `match_ignore_ascii_case`. -/
def asciiLower (s : String) : String :=
  String.mk (s.data.map fun c =>
    if 65 ≤ c.toNat ∧ c.toNat ≤ 90 then Char.ofNat (c.toNat + 32) else c)

/-- Modelled from the spec: `Parser::expect_function_matching` — consume
the next token, requiring a function whose name matches ASCII
case-insensitively; its delimited arguments are returned for a later
`parse_nested_block`. -/
def expect_function_matching (name : String) (st : PState) :
    Except PErr (List (CTok × SrcLoc) × PState) :=
  match pNext st with
  | .error e => .error e
  | .ok ((t, _), st') =>
    match t with
    | .function fname args =>
      if asciiLower fname == asciiLower name then .ok (args, st')
      else .error ⟨.unexpectedToken (.function fname args), st.loc⟩
    | tok => .error ⟨.unexpectedToken tok, st.loc⟩

/-- Modelled from the spec: `parse_entirely` — run the closure and fail
with the first leftover token if it does not exhaust the input. -/
def parse_entirely {α : Type} (p : PState → Except PErr (α × PState)) (st : PState) :
    Except PErr (α × PState) :=
  match p st with
  | .error e => .error e
  | .ok (a, st') =>
    match st'.toks with
    | [] => .ok (a, st')
    | (t, _) :: _ => .error ⟨.unexpectedToken t, st'.loc⟩

/-- Modelled from the spec: `parse_nested_block` — run the closure over
the delimited arguments of the just-consumed function token (requiring
exhaustion), then continue after the block. -/
def parse_nested_block {α : Type} (args : List (CTok × SrcLoc)) (st : PState)
    (p : PState → Except PErr (α × PState)) : Except PErr (α × PState) :=
  match parse_entirely p ⟨args, st.loc⟩ with
  | .error e => .error e
  | .ok (a, _) => .ok (a, st)

/-- Modelled from the spec: `parse_comma_separated` — parse one item per
comma-delimited chunk, requiring each chunk to be fully consumed.  The
fuel is instantiated with more than the token count. -/
def parse_comma_separated {α : Type} (p : PState → Except PErr (α × PState)) :
    Nat → PState → Except PErr (List α × PState)
  | 0, st => .error ⟨.endOfInput, st.loc⟩
  | fuel + 1, st =>
    let sub := st.toks.takeWhile (fun t => !t.1.isComma)
    let rest := st.toks.dropWhile (fun t => !t.1.isComma)
    match parse_entirely p ⟨sub, st.loc⟩ with
    | .error e => .error e
    | .ok (a, st') =>
      match rest with
      | [] => .ok ([a], ⟨[], st'.loc⟩)
      | (_, l) :: rest2 =>
        match parse_comma_separated p fuel ⟨rest2, l⟩ with
        | .error e => .error e
        | .ok (as, st2) => .ok (a :: as, st2)

/-! ### The codecs of the module over the token model -/

inductive FontTechnology where
  | featuresOpentype
  | featuresAat
  | featuresGraphite
  | colorColrv0
  | colorColrv1
  | colorSvg
  | colorSbix
  | colorCbdt
  | variations
  | palettes
  | incremental
deriving DecidableEq, Repr

/-- `impl Parse for FontTechnology` (font_face.rs lines 295-319): an
identifier from the 11-keyword closed set, matched ASCII
case-insensitively; anything else is an unexpected-token error. -/
def FontTechnology.parse (st : PState) : Except PErr (FontTechnology × PState) :=
  let location := st.loc
  match pNext st with
  | .error e => .error e
  | .ok ((t, _), st') =>
    match t with
    | .ident id =>
      if asciiLower id == "variations" then .ok (.variations, st')
      else if asciiLower id == "palettes" then .ok (.palettes, st')
      else if asciiLower id == "incremental" then .ok (.incremental, st')
      else if asciiLower id == "features-opentype" then .ok (.featuresOpentype, st')
      else if asciiLower id == "features-aat" then .ok (.featuresAat, st')
      else if asciiLower id == "features-graphite" then .ok (.featuresGraphite, st')
      else if asciiLower id == "color-colrv0" then .ok (.colorColrv0, st')
      else if asciiLower id == "color-colrv1" then .ok (.colorColrv1, st')
      else if asciiLower id == "color-svg" then .ok (.colorSvg, st')
      else if asciiLower id == "color-sbix" then .ok (.colorSbix, st')
      else if asciiLower id == "color-cbdt" then .ok (.colorCbdt, st')
      else .error ⟨.unexpectedToken (.ident id), location⟩
    | tok => .error ⟨.unexpectedToken tok, location⟩

/-- `FontFormat`; the fallback variant is `String` in the source,
spelled `string` here to avoid shadowing the Lean type. -/
inductive FontFormat where
  | WOFF
  | WOFF2
  | TrueType
  | OpenType
  | EmbeddedOpenType
  | Collection
  | SVG
  | string (s : String)
deriving DecidableEq, Repr

/-- Modelled from the spec: `Parser::expect_ident_or_string` — the next
token must be an identifier or a quoted string; its text is returned. -/
def expect_ident_or_string (st : PState) : Except PErr (String × PState) :=
  match pNext st with
  | .error e => .error e
  | .ok ((t, _), st') =>
    match t with
    | .ident s => .ok (s, st')
    | .str s => .ok (s, st')
    | tok => .error ⟨.unexpectedToken tok, st.loc⟩

/-- `impl Parse for FontFormat` (font_face.rs lines 214-228): an
identifier-or-string matched case-insensitively against 7 keywords, any
other text becoming the verbatim fallback variant. -/
def FontFormat.parse (st : PState) : Except PErr (FontFormat × PState) :=
  match expect_ident_or_string st with
  | .error e => .error e
  | .ok (s, st') =>
    if asciiLower s == "woff" then .ok (.WOFF, st')
    else if asciiLower s == "woff2" then .ok (.WOFF2, st')
    else if asciiLower s == "truetype" then .ok (.TrueType, st')
    else if asciiLower s == "opentype" then .ok (.OpenType, st')
    else if asciiLower s == "embedded-opentype" then .ok (.EmbeddedOpenType, st')
    else if asciiLower s == "collection" then .ok (.Collection, st')
    else if asciiLower s == "svg" then .ok (.SVG, st')
    else .ok (.string s, st')

/-! ### Source references (`UrlSource`, `Source`) -/

/-- The external URL value (`crate::values::url::Url`), reduced to its
text. -/
structure Url where
  url : String
deriving DecidableEq, Repr

/-- Modelled from the spec: the external URL value parser — consumes one
url token. -/
def Url.parse (st : PState) : Except PErr (Url × PState) :=
  match pNext st with
  | .error e => .error e
  | .ok ((t, _), st') =>
    match t with
    | .urlTok s => .ok (⟨s⟩, st')
    | tok => .error ⟨.unexpectedToken tok, st.loc⟩

/-- The external family-name value (`crate::properties::font::FontFamily`),
reduced to its text. -/
structure FontFamily where
  name : String
deriving DecidableEq, Repr

/-- Modelled from the spec: the external family-name parser — one
identifier or string. -/
def FontFamily.parse (st : PState) : Except PErr (FontFamily × PState) :=
  match expect_ident_or_string st with
  | .error e => .error e
  | .ok (s, st') => .ok (⟨s⟩, st')

structure UrlSource where
  url : Url
  format : Option FontFormat
  tech : List FontTechnology
deriving DecidableEq, Repr

/-- The ordering check of `UrlSource::parse` (font_face.rs lines
131-145): with a recorded format location, error when the technology
location's line is earlier, or equal with an earlier column. -/
def techOrderingViolation (format_location : Option SrcLoc) (tech_location : SrcLoc) : Bool :=
  match format_location with
  | some location =>
    if tech_location.line < location.line then true
    else if tech_location.line = location.line ∧ tech_location.column < location.column then
      true
    else false
  | none => false

/-- `impl Parse for UrlSource` (font_face.rs lines 118-154): a URL, an
optional `format(...)` (recording the location right after its function
token), then an optional `tech(...)` whose location is checked against
the recorded format location; a violation is an `AtRuleBodyInvalid`
error.  `try_parse` failures rewind, embedded as continuing from the
pre-attempt state. -/
def UrlSource.parse (st : PState) : Except PErr (UrlSource × PState) :=
  match Url.parse st with
  | .error e => .error e
  | .ok (url, st1) =>
    match expect_function_matching "format" st1 with
    | .ok (fargs, st2) =>
      match parse_nested_block fargs st2 FontFormat.parse with
      | .error e => .error e
      | .ok (fmt, st3) =>
        match expect_function_matching "tech" st3 with
        | .ok (targs, st4) =>
          if techOrderingViolation (some st2.loc) st4.loc then
            .error ⟨.atRuleBodyInvalid, st4.loc⟩
          else
            match parse_nested_block targs st4
                (parse_comma_separated FontTechnology.parse (targs.length + 1)) with
            | .error e => .error e
            | .ok (tech, st5) => .ok (⟨url, some fmt, tech⟩, st5)
        | .error _ => .ok (⟨url, some fmt, []⟩, st3)
    | .error _ =>
      match expect_function_matching "tech" st1 with
      | .ok (targs, st4) =>
        if techOrderingViolation none st4.loc then
          .error ⟨.atRuleBodyInvalid, st4.loc⟩
        else
          match parse_nested_block targs st4
              (parse_comma_separated FontTechnology.parse (targs.length + 1)) with
          | .error e => .error e
          | .ok (tech, st5) => .ok (⟨url, none, tech⟩, st5)
      | .error _ => .ok (⟨url, none, []⟩, st1)

inductive Source where
  | url (u : UrlSource)
  | local (f : FontFamily)
deriving DecidableEq, Repr

/-- `impl Parse for Source` (font_face.rs lines 69-86): try the URL form;
an `AtRuleBodyInvalid` failure propagates unchanged; any other failure
rewinds and requires a `local(...)` function wrapping a family name. -/
def Source.parse (st : PState) : Except PErr (Source × PState) :=
  match UrlSource.parse st with
  | .ok (u, st') => .ok (.url u, st')
  | .error ⟨.atRuleBodyInvalid, l⟩ => .error ⟨.atRuleBodyInvalid, l⟩
  | .error _ =>
    match expect_function_matching "local" st with
    | .error e2 => .error e2
    | .ok (args, st1) =>
      match parse_nested_block args st1 FontFamily.parse with
      | .error e2 => .error e2
      | .ok (fam, st2) => .ok (.local fam, st2)

/-! ### The descriptor dispatcher -/

/-- The external one-or-two-value numeric range (`Size2D`), used for the
weight and stretch descriptors. -/
structure Size2D where
  a : Int
  b : Int
deriving DecidableEq, Repr

/-- Modelled from the spec: the external weight/stretch scalar-or-range
parser — one number, optionally followed by a second. -/
def Size2D.parse (st : PState) : Except PErr (Size2D × PState) :=
  match pNext st with
  | .error e => .error e
  | .ok ((t, _), st') =>
    match t with
    | .num n =>
      match pNext st' with
      | .ok ((.num m, _), st2) => .ok (⟨n, m⟩, st2)
      | _ => .ok (⟨n, n⟩, st')
    | tok => .error ⟨.unexpectedToken tok, st.loc⟩

/-- The external style value, reduced to its keyword. -/
inductive FontStyle where
  | normal
  | italic
  | oblique
deriving DecidableEq, Repr

/-- Modelled from the spec: the external style parser — one keyword of
the style grammar. -/
def FontStyle.parse (st : PState) : Except PErr (FontStyle × PState) :=
  match pNext st with
  | .error e => .error e
  | .ok ((t, _), st') =>
    match t with
    | .ident s =>
      if asciiLower s == "normal" then .ok (.normal, st')
      else if asciiLower s == "italic" then .ok (.italic, st')
      else if asciiLower s == "oblique" then .ok (.oblique, st')
      else .error ⟨.unexpectedToken (.ident s), st.loc⟩
    | tok => .error ⟨.unexpectedToken tok, st.loc⟩

/-- `impl Parse for UnicodeRange` (font_face.rs lines 355-363): delegate
to the lexer's code-point-range token and wrap the pair. -/
def UnicodeRange.parse (st : PState) : Except PErr (UnicodeRange × PState) :=
  match pNext st with
  | .error e => .error e
  | .ok ((t, _), st') =>
    match t with
    | .unicodeRangeTok a b => .ok (⟨a, b⟩, st')
    | tok => .error ⟨.unexpectedToken tok, st.loc⟩

/-- The external custom-value fallback representation
(`crate::properties::custom::CustomProperty`): a name and the raw token
sequence. -/
structure CustomProperty where
  name : String
  value : List (CTok × SrcLoc)

/-- Modelled from the spec: `CustomProperty::parse` — captures the raw
token sequence verbatim and never fails. -/
def CustomProperty.parse (name : String) (st : PState) :
    Except PErr (CustomProperty × PState) :=
  .ok (⟨name, st.toks⟩, ⟨[], st.loc⟩)

inductive FontFaceProperty where
  | source (s : List Source)
  | fontFamily (f : FontFamily)
  | fontStyle (s : FontStyle)
  | fontWeight (w : Size2D)
  | fontStretch (w : Size2D)
  | unicodeRange (rs : List UnicodeRange)
  | custom (c : CustomProperty)

/-- `FontFaceDeclarationParser::parse_value` (font_face.rs lines
425-459): case-insensitive dispatch over the six known descriptor names;
a successful typed parse returns that descriptor, and any failure — or an
unknown name — resets to the saved pre-attempt state and captures the
raw tokens as a `Custom` descriptor. -/
def parse_value (name : String) (input : PState) :
    Except PErr (FontFaceProperty × PState) :=
  let state := input
  let custom : Except PErr (FontFaceProperty × PState) :=
    match CustomProperty.parse name state with
    | .ok (c, st') => .ok (.custom c, st')
    | .error e => .error e
  if asciiLower name == "src" then
    match parse_comma_separated Source.parse (input.toks.length + 1) input with
    | .ok (sources, st') => .ok (.source sources, st')
    | .error _ => custom
  else if asciiLower name == "font-family" then
    match FontFamily.parse input with
    | .ok (v, st') => .ok (.fontFamily v, st')
    | .error _ => custom
  else if asciiLower name == "font-weight" then
    match Size2D.parse input with
    | .ok (v, st') => .ok (.fontWeight v, st')
    | .error _ => custom
  else if asciiLower name == "font-style" then
    match FontStyle.parse input with
    | .ok (v, st') => .ok (.fontStyle v, st')
    | .error _ => custom
  else if asciiLower name == "font-stretch" then
    match Size2D.parse input with
    | .ok (v, st') => .ok (.fontStretch v, st')
    | .error _ => custom
  else if asciiLower name == "unicode-range" then
    match parse_comma_separated UnicodeRange.parse (input.toks.length + 1) input with
    | .ok (v, st') => .ok (.unicodeRange v, st')
    | .error _ => custom
  else custom

/-! ### The output writer model and the serializers -/

/-- Modelled from the spec: the `Printer` configuration — the
size-minimizing flag and the current indent level. -/
structure PrinterCfg where
  minify : Bool
  indent : Nat
deriving DecidableEq, Repr

/-- Modelled from the spec: `Printer::whitespace` — one space, dropped
when minifying. -/
def whitespace (cfg : PrinterCfg) : String :=
  if cfg.minify then "" else " "

/-- Modelled from the spec: `Printer::newline` — a line break plus
two-space indentation per level, dropped when minifying. -/
def newline (cfg : PrinterCfg) : String :=
  if cfg.minify then "" else "\n" ++ String.mk (List.replicate (2 * cfg.indent) ' ')

/-- Modelled from the spec: `Printer::delim` — optional whitespace, the
delimiter, whitespace. -/
def delim (c : Char) (ws_before : Bool) (cfg : PrinterCfg) : String :=
  (if ws_before then whitespace cfg else "") ++ String.singleton c ++ whitespace cfg

/-- Modelled from the spec: `cssparser::serialize_string` — the value as
a quoted string literal, escaping quotes and backslashes. -/
def cssStringEscape (c : Char) : List Char :=
  if c = '"' ∨ c = '\\' then ['\\', c] else [c]

def serialize_string (s : String) : String :=
  "\"" ++ String.mk (s.data.foldr (fun c acc => cssStringEscape c ++ acc) []) ++ "\""

/-- The canonical keyword (or fallback text) of a format value, from the
`match` of `impl ToCss for FontFormat` (font_face.rs lines 236-245). -/
def FontFormat.keywordString : FontFormat → String
  | .WOFF => "woff"
  | .WOFF2 => "woff2"
  | .TrueType => "truetype"
  | .OpenType => "opentype"
  | .EmbeddedOpenType => "embedded-opentype"
  | .Collection => "collection"
  | .SVG => "svg"
  | .string s => s

/-- `impl ToCss for FontFormat` (font_face.rs lines 230-251): the keyword
string is always emitted through `serialize_string`. -/
def FontFormat.toCss (f : FontFormat) : String :=
  serialize_string (FontFormat.keywordString f)

/-- `impl ToCss for FontTechnology` (font_face.rs lines 322-341). -/
def FontTechnology.toCss : FontTechnology → String
  | .featuresOpentype => "features-opentype"
  | .featuresAat => "features-aat"
  | .featuresGraphite => "features-graphite"
  | .colorColrv0 => "color-colrv0"
  | .colorColrv1 => "color-colrv1"
  | .colorSvg => "color-svg"
  | .colorSbix => "color-sbix"
  | .colorCbdt => "color-cbdt"
  | .variations => "variations"
  | .palettes => "palettes"
  | .incremental => "incremental"

/-- Modelled from the spec: the external URL value printer. -/
def Url.toCss (u : Url) : String :=
  "url(" ++ serialize_string u.url ++ ")"

/-- Modelled from the spec: the external family-name printer. -/
def FontFamily.toCss (f : FontFamily) : String := f.name

/-- The indexed technology loop of `UrlSource::to_css` (font_face.rs
lines 173-178): a comma after every element except the last. -/
def techLoop (len : Nat) : Nat → List FontTechnology → String
  | _, [] => ""
  | i, t :: rest =>
    FontTechnology.toCss t ++ (if len - 1 ≠ i then "," else "") ++ techLoop len (i + 1) rest

/-- `impl ToCss for UrlSource` (font_face.rs lines 156-183): the URL,
then `format(...)` only when present, then `tech(...)` only when the
list is non-empty. -/
def UrlSource.toCss (u : UrlSource) (cfg : PrinterCfg) : String :=
  Url.toCss u.url ++
    (match u.format with
     | some f => whitespace cfg ++ "format(" ++ FontFormat.toCss f ++ ")"
     | none => "") ++
    (if 0 < u.tech.length then
      whitespace cfg ++ "tech(" ++ techLoop u.tech.length 0 u.tech ++ ")"
    else "")

/-- `impl ToCss for Source` (font_face.rs lines 88-102). -/
def Source.toCss (s : Source) (cfg : PrinterCfg) : String :=
  match s with
  | .url u => UrlSource.toCss u cfg
  | .local f => "local(" ++ FontFamily.toCss f ++ ")"

/-- Modelled from the spec: the external style printer. -/
def FontStyle.toCss : FontStyle → String
  | .normal => "normal"
  | .italic => "italic"
  | .oblique => "oblique"

/-- Modelled from the spec: the external scalar-or-range printer. -/
def Size2D.toCss (v : Size2D) : String :=
  toString v.a ++ (if v.b ≠ v.a then " " ++ toString v.b else "")

/-- Modelled from the spec: the external raw-value renderer replays the
captured token sequence; the fuel bounds the nesting depth. -/
def CTok.toCssFuel : Nat → CTok → String
  | _, .ident s => s
  | _, .str s => serialize_string s
  | _, .urlTok s => "url(" ++ s ++ ")"
  | _, .num n => toString n
  | _, .comma => ","
  | _, .unicodeRangeTok a b => unicodeRangeToCss ⟨a, b⟩
  | 0, .function name _ => name ++ "()"
  | fuel + 1, .function name args =>
    name ++ "(" ++ String.join (args.map fun p => CTok.toCssFuel fuel p.1) ++ ")"

/-- Modelled from the spec: the raw token sequence rendered verbatim. -/
def tokListToCss (ts : List (CTok × SrcLoc)) : String :=
  String.join (ts.map fun p => CTok.toCssFuel 64 p.1)

/-- The indexed multi-value loop of the `property!` macro of
`impl ToCss for FontFaceProperty` (font_face.rs lines 505-516): the list
separator after every element except the last. -/
def listLoop {α : Type} (f : α → String) (sep : String) (len : Nat) :
    Nat → List α → String
  | _, [] => ""
  | i, v :: rest => f v ++ (if i < len - 1 then sep else "") ++ listLoop f sep len (i + 1) rest

/-- `impl ToCss for FontFaceProperty` (font_face.rs lines 493-533):
name, colon delimiter, value (lists joined by comma delimiters). -/
def FontFaceProperty.toCss (p : FontFaceProperty) (cfg : PrinterCfg) : String :=
  match p with
  | .source value =>
    "src" ++ delim ':' false cfg ++
      listLoop (fun s => Source.toCss s cfg) (delim ',' false cfg) value.length 0 value
  | .fontFamily value => "font-family" ++ delim ':' false cfg ++ FontFamily.toCss value
  | .fontStyle value => "font-style" ++ delim ':' false cfg ++ FontStyle.toCss value
  | .fontWeight value => "font-weight" ++ delim ':' false cfg ++ Size2D.toCss value
  | .fontStretch value => "font-stretch" ++ delim ':' false cfg ++ Size2D.toCss value
  | .unicodeRange value =>
    "unicode-range" ++ delim ':' false cfg ++
      listLoop unicodeRangeToCss (delim ',' false cfg) value.length 0 value
  | .custom c => c.name ++ delim ':' false cfg ++ tokListToCss c.value

/-- The source-position marker of a rule (`super::Location`). -/
structure Location where
  line : Nat
  column : Nat
deriving DecidableEq, Repr

structure FontFaceRule where
  properties : List FontFaceProperty
  loc : Location

/-- The descriptor loop of `FontFaceRule::to_css` (font_face.rs lines
480-486): newline, the descriptor, then a semicolon unless this is the
last descriptor and the printer is minifying. -/
def rulePropsLoop (cfg : PrinterCfg) (len : Nat) : Nat → List FontFaceProperty → String
  | _, [] => ""
  | i, p :: rest =>
    newline cfg ++ FontFaceProperty.toCss p cfg ++
      (if i ≠ len - 1 ∨ cfg.minify = false then ";" else "") ++ rulePropsLoop cfg len (i + 1) rest

/-- `impl ToCss for FontFaceRule` (font_face.rs lines 469-491): the
at-rule keyword, whitespace, the braced and indented descriptor block. -/
def FontFaceRule.toCss (r : FontFaceRule) (cfg : PrinterCfg) : String :=
  "@font-face" ++ whitespace cfg ++ "\x7b" ++
    rulePropsLoop ⟨cfg.minify, cfg.indent + 1⟩ r.properties.length 0 r.properties ++
    newline cfg ++ "\x7d"

/-- "A comma-joined sequence with no trailing separator" (spec wording),
used to state the loop theorems. -/
def sepJoin (sep : String) : List String → String
  | [] => ""
  | [s] => s
  | s :: rest => s ++ sep ++ sepJoin sep rest

/-! ### Data used by the claim statements -/

/-- The token stream of one src item `url(f) tech(variations) format(woff2)`,
with its in-order source positions. -/
def techFirstToks : List (CTok × SrcLoc) :=
  [(.urlTok "f", ⟨1, 7⟩),
   (.function "tech" [(.ident "variations", ⟨1, 24⟩)], ⟨1, 13⟩),
   (.function "format" [(.ident "woff2", ⟨1, 39⟩)], ⟨1, 33⟩)]

/-- The token stream of one src item `url(f) format(woff2) tech(variations)`. -/
def formatFirstToks : List (CTok × SrcLoc) :=
  [(.urlTok "f", ⟨1, 7⟩),
   (.function "format" [(.ident "woff2", ⟨1, 21⟩)], ⟨1, 14⟩),
   (.function "tech" [(.ident "variations", ⟨1, 34⟩)], ⟨1, 28⟩)]

/-- The 11-keyword closed set of the technology grammar, in the order
the source matches them. -/
def techKeywords : List (String × FontTechnology) :=
  [("variations", .variations), ("palettes", .palettes), ("incremental", .incremental),
   ("features-opentype", .featuresOpentype), ("features-aat", .featuresAat),
   ("features-graphite", .featuresGraphite), ("color-colrv0", .colorColrv0),
   ("color-colrv1", .colorColrv1), ("color-svg", .colorSvg), ("color-sbix", .colorSbix),
   ("color-cbdt", .colorCbdt)]

def techLookup (s : String) : Option FontTechnology :=
  (techKeywords.find? (fun p => s == p.1)).map Prod.snd

/-- The 7-keyword format set, in the order the source matches them. -/
def formatKeywords : List (String × FontFormat) :=
  [("woff", .WOFF), ("woff2", .WOFF2), ("truetype", .TrueType), ("opentype", .OpenType),
   ("embedded-opentype", .EmbeddedOpenType), ("collection", .Collection), ("svg", .SVG)]

def formatLookup (s : String) : Option FontFormat :=
  (formatKeywords.find? (fun p => s == p.1)).map Prod.snd

/-- A plain join, used to state the pretty-printing loop results. -/
def strJoin : List String → String
  | [] => ""
  | s :: rest => s ++ strJoin rest

/-! ### Lemmas about the hex codec -/

theorem toHexCoreAux_congr :
    ∀ n fuel1 fuel2, n ≤ fuel1 → n ≤ fuel2 →
      toHexCoreAux fuel1 n = toHexCoreAux fuel2 n := by
  intro n
  induction n using Nat.strong_induction_on with
  | _ n ih =>
    intro fuel1 fuel2 h1 h2
    match fuel1, fuel2 with
    | 0, 0 => rfl
    | 0, f2 + 1 =>
      interval_cases n
      simp [toHexCoreAux]
    | f1 + 1, 0 =>
      interval_cases n
      simp [toHexCoreAux]
    | f1 + 1, f2 + 1 =>
      by_cases hn : n = 0
      · simp [toHexCoreAux, hn]
      · have hlt : n / 16 < n := Nat.div_lt_self (Nat.pos_of_ne_zero hn) (by norm_num)
        have e1 : n / 16 ≤ f1 := by omega
        have e2 : n / 16 ≤ f2 := by omega
        simp only [toHexCoreAux, if_neg hn]
        rw [ih (n / 16) hlt f1 f2 e1 e2]

theorem toHexCore_eq (n : Nat) :
    toHexCore n = if n = 0 then [] else toHexCore (n / 16) ++ [hexDigitChar (n % 16)] := by
  by_cases hn : n = 0
  · simp [toHexCore, toHexCoreAux, hn]
  · obtain ⟨k, rfl⟩ : ∃ k, n = k + 1 := ⟨n - 1, by omega⟩
    simp only [toHexCore, toHexCoreAux, if_neg hn]
    rw [toHexCoreAux_congr ((k + 1) / 16) k ((k + 1) / 16) (by omega) (le_refl _)]

theorem hexDigitVal_hexDigitChar : ∀ n, n < 16 → hexDigitVal (hexDigitChar n) = some n := by
  decide

theorem isHexDigit_hexDigitChar (n : Nat) (h : n < 16) :
    isHexDigit (hexDigitChar n) = true := by
  simp [isHexDigit, hexDigitVal_hexDigitChar n h]

theorem toHexCore_all_hex (n : Nat) : (toHexCore n).all isHexDigit = true := by
  induction n using Nat.strong_induction_on with
  | _ n ih =>
    rw [toHexCore_eq]
    by_cases hn : n = 0
    · simp [hn]
    · have hlt : n / 16 < n := Nat.div_lt_self (Nat.pos_of_ne_zero hn) (by norm_num)
      simp only [if_neg hn, List.all_append, ih (n / 16) hlt, Bool.true_and, List.all_cons,
        List.all_nil, Bool.and_true]
      exact isHexDigit_hexDigitChar _ (Nat.mod_lt _ (by norm_num))

theorem toHexChars_all_hex (n : Nat) : (toHexChars n).all isHexDigit = true := by
  by_cases hn : n = 0
  · simp [toHexChars, hn]; decide
  · simpa [toHexChars, hn] using toHexCore_all_hex n

theorem toHexChars_ne_nil (n : Nat) : toHexChars n ≠ [] := by
  by_cases hn : n = 0
  · simp [toHexChars, hn]
  · rw [toHexChars, if_neg hn, toHexCore_eq, if_neg hn]
    simp

theorem parseHexAux_append (l1 l2 : List Char) (acc : Nat) :
    parseHexAux (l1 ++ l2) acc =
      match parseHexAux l1 acc with
      | some v => parseHexAux l2 v
      | none => none := by
  induction l1 generalizing acc with
  | nil => simp [parseHexAux]
  | cons c rest ih =>
    simp only [List.cons_append, parseHexAux]
    match hv : hexDigitVal c with
    | some d => simp [ih]
    | none => simp

theorem parseHexAux_toHexCore (n : Nat) :
    ∀ acc, parseHexAux (toHexCore n) acc = some (acc * 16 ^ (toHexCore n).length + n) := by
  induction n using Nat.strong_induction_on with
  | _ n ih =>
    intro acc
    rw [toHexCore_eq]
    by_cases hn : n = 0
    · simp [hn, parseHexAux]
    · have hlt : n / 16 < n := Nat.div_lt_self (Nat.pos_of_ne_zero hn) (by norm_num)
      rw [if_neg hn, parseHexAux_append, ih (n / 16) hlt acc]
      simp only [parseHexAux, hexDigitVal_hexDigitChar (n % 16) (Nat.mod_lt _ (by norm_num)),
        List.length_append, List.length_cons, List.length_nil]
      congr 1
      have hdm := Nat.div_add_mod n 16
      ring_nf
      omega

theorem parseHexAux_toHexChars (n : Nat) : parseHexAux (toHexChars n) 0 = some n := by
  by_cases hn : n = 0
  · simp [toHexChars, hn]; decide
  · rw [toHexChars, if_neg hn, parseHexAux_toHexCore n 0]
    simp

/-! ### Splitting a hex run off a character list -/

theorem takeWhile_append_of_all {p : Char → Bool} (l1 l2 : List Char)
    (h : l1.all p = true) : (l1 ++ l2).takeWhile p = l1 ++ l2.takeWhile p := by
  induction l1 with
  | nil => simp
  | cons c rest ih =>
    simp only [List.all_cons, Bool.and_eq_true] at h
    simp [List.takeWhile_cons, h.1, ih h.2]

theorem dropWhile_append_of_all {p : Char → Bool} (l1 l2 : List Char)
    (h : l1.all p = true) : (l1 ++ l2).dropWhile p = l2.dropWhile p := by
  induction l1 with
  | nil => simp
  | cons c rest ih =>
    simp only [List.all_cons, Bool.and_eq_true] at h
    simp [List.dropWhile_cons, h.1, ih h.2]

theorem takeWhile_cons_of_false {p : Char → Bool} {c : Char} (l : List Char)
    (h : p c = false) : (c :: l).takeWhile p = [] := by
  simp [List.takeWhile_cons, h]

theorem dropWhile_cons_of_false {p : Char → Bool} {c : Char} (l : List Char)
    (h : p c = false) : (c :: l).dropWhile p = c :: l := by
  simp [List.dropWhile_cons, h]

/-! ### Bit-window lemmas for the scan loop -/

theorem and_shiftLeft_mask (d m k : Nat) :
    d &&& (m <<< k) = ((d >>> k) &&& m) <<< k := by
  apply Nat.eq_of_testBit_eq
  intro j
  simp only [Nat.testBit_and, Nat.testBit_shiftLeft, Nat.testBit_shiftRight]
  by_cases hj : k ≤ j
  · have h1 : k + (j - k) = j := by omega
    simp [hj, h1, Bool.and_comm, Bool.and_left_comm]
  · simp [hj]

theorem shiftLeft_right_inj {a b k : Nat} (h : a <<< k = b <<< k) : a = b := by
  rw [Nat.shiftLeft_eq, Nat.shiftLeft_eq] at h
  exact Nat.eq_of_mul_eq_mul_right (pow_pos (by norm_num) k) h

theorem and_window_eq_mod (s k : Nat) :
    s &&& (15 <<< k) = ((s >>> k) % 16) <<< k := by
  have h15 : (15 : Nat) = 2 ^ 4 - 1 := by norm_num
  have h16 : (16 : Nat) = 2 ^ 4 := by norm_num
  rw [and_shiftLeft_mask, h15, Nat.and_pow_two_sub_one_eq_mod, ← h16]

theorem window_eq_iff (s e k : Nat) :
    s &&& (15 <<< k) = e &&& (15 <<< k) ↔ (s >>> k) % 16 = (e >>> k) % 16 := by
  rw [and_window_eq_mod, and_window_eq_mod]
  constructor
  · exact fun h => shiftLeft_right_inj h
  · intro h
    rw [h]

theorem shiftRight_step (s k : Nat) :
    s >>> k = 16 * (s >>> (k + 4)) + (s >>> k) % 16 := by
  have h1 : s >>> (k + 4) = (s >>> k) / 16 := by
    rw [Nat.shiftRight_add, Nat.shiftRight_eq_div_pow]
  rw [h1]
  omega

/-- The scan loop preserves prefix agreement: if `start` and `end` agree
above bit `4·n + 4` (true of every pair below `2^(4·n+4)`), they agree
above the returned shift plus 4. -/
theorem findShiftAux_shiftRight_eq (s e : Nat) :
    ∀ n, s >>> (4 * n + 4) = e >>> (4 * n + 4) →
      s >>> (findShiftAux s e n + 4) = e >>> (findShiftAux s e n + 4) := by
  intro n
  induction n with
  | zero => intro h; simpa [findShiftAux] using h
  | succ n ih =>
    intro h
    rw [findShiftAux]
    by_cases hw : s &&& (15 <<< (4 * (n + 1))) ≠ e &&& (15 <<< (4 * (n + 1)))
    · simpa [hw] using h
    · push_neg at hw
      have hmod := (window_eq_iff s e (4 * (n + 1))).mp hw
      have hstep : s >>> (4 * (n + 1)) = e >>> (4 * (n + 1)) := by
        rw [shiftRight_step s (4 * (n + 1)), shiftRight_step e (4 * (n + 1)), hmod, h]
      have hn : s >>> (4 * n + 4) = e >>> (4 * n + 4) := by
        have h4 : 4 * (n + 1) = 4 * n + 4 := by ring
        rwa [h4] at hstep
      simp only [hw, ne_eq, not_true_eq_false, if_false, ite_false]
      exact ih hn

theorem findShiftAux_dvd (s e : Nat) : ∀ n, 4 ∣ findShiftAux s e n := by
  intro n
  induction n with
  | zero => simp [findShiftAux]
  | succ n ih =>
    rw [findShiftAux]
    by_cases hw : s &&& (15 <<< (4 * (n + 1))) ≠ e &&& (15 <<< (4 * (n + 1)))
    · simp [hw]
    · simpa [hw] using ih

theorem xor_and_mask_eq_zero_iff (s e m : Nat) :
    s &&& m = e &&& m ↔ (s ^^^ e) &&& m = 0 := by
  constructor
  · intro h
    apply Nat.eq_of_testBit_eq
    intro j
    have hj := congrArg (fun x => x.testBit j) h
    simp only [Nat.testBit_and] at hj
    simp only [Nat.testBit_and, Nat.testBit_xor, Nat.zero_testBit]
    cases hm : m.testBit j <;> cases hs : s.testBit j <;> cases he : e.testBit j <;>
      simp_all
  · intro h
    apply Nat.eq_of_testBit_eq
    intro j
    have hj := congrArg (fun x => x.testBit j) h
    simp only [Nat.testBit_and, Nat.testBit_xor, Nat.zero_testBit] at hj
    simp only [Nat.testBit_and]
    cases hm : m.testBit j <;> cases hs : s.testBit j <;> cases he : e.testBit j <;>
      simp_all

/-- The scan loop finds the most significant differing hex window: with
enough fuel (`start ^^^ end < 2^(4·(n+1))`) it returns four times that
window's index. -/
theorem findShiftAux_eq_log2 (s e : Nat) (hne : s ≠ e) :
    ∀ n, s ^^^ e < 2 ^ (4 * (n + 1)) →
      findShiftAux s e n = 4 * (Nat.log2 (s ^^^ e) / 4) := by
  have hd0 : s ^^^ e ≠ 0 := fun h => hne (Nat.xor_eq_zero.mp h)
  intro n
  induction n with
  | zero =>
    intro hlt
    have hl4 : Nat.log2 (s ^^^ e) < 4 := by
      rw [Nat.log2_lt hd0]
      simpa using hlt
    simp only [findShiftAux]
    omega
  | succ n ih =>
    intro hlt
    rw [findShiftAux]
    by_cases hw : s &&& (15 <<< (4 * (n + 1))) ≠ e &&& (15 <<< (4 * (n + 1)))
    · have hdw : (s ^^^ e) &&& (15 <<< (4 * (n + 1))) ≠ 0 := by
        intro h
        exact hw ((xor_and_mask_eq_zero_iff s e _).mpr h)
      have hge : 2 ^ (4 * (n + 1)) ≤ s ^^^ e := by
        by_contra hcon
        push_neg at hcon
        have hz : (s ^^^ e) >>> (4 * (n + 1)) = 0 := by
          rw [Nat.shiftRight_eq_div_pow]
          exact Nat.div_eq_of_lt hcon
        rw [and_window_eq_mod, hz] at hdw
        simp at hdw
      have hlo : 4 * (n + 1) ≤ Nat.log2 (s ^^^ e) := (Nat.le_log2 hd0).mpr hge
      have hhi : Nat.log2 (s ^^^ e) < 4 * (n + 1 + 1) := by
        rw [Nat.log2_lt hd0]
        exact hlt
      rw [if_pos hw]
      omega
    · push_neg at hw
      have hdw : (s ^^^ e) &&& (15 <<< (4 * (n + 1))) = 0 :=
        (xor_and_mask_eq_zero_iff s e _).mp hw
      have hsmall : (s ^^^ e) >>> (4 * (n + 1)) < 16 := by
        rw [Nat.shiftRight_eq_div_pow]
        apply Nat.div_lt_of_lt_mul
        calc s ^^^ e < 2 ^ (4 * (n + 1 + 1)) := hlt
        _ = 2 ^ (4 * (n + 1)) * 16 := by
          rw [show 4 * (n + 1 + 1) = 4 * (n + 1) + 4 by ring, pow_add]
          norm_num
      have hz : (s ^^^ e) >>> (4 * (n + 1)) = 0 := by
        rw [and_window_eq_mod] at hdw
        have hmz : (s ^^^ e) >>> (4 * (n + 1)) % 16 = 0 := by
          apply shiftLeft_right_inj (k := 4 * (n + 1))
          simpa using hdw
        have hme : (s ^^^ e) >>> (4 * (n + 1)) % 16 = (s ^^^ e) >>> (4 * (n + 1)) :=
          Nat.mod_eq_of_lt hsmall
        omega
      have hlt2 : s ^^^ e < 2 ^ (4 * (n + 1)) := by
        rw [Nat.shiftRight_eq_div_pow] at hz
        exact (Nat.div_eq_zero_iff (pow_pos (by norm_num) _)).mp hz
      simp only [hw, ne_eq, not_true_eq_false, if_false, ite_false]
      exact ih hlt2

/-! ### The `u32` complement mask and the wildcard prefix -/

theorem and_compl_mask (s m : Nat) (hs : s < 2 ^ 32) :
    s &&& (4294967295 ^^^ (2 ^ m - 1)) = (s >>> m) <<< m := by
  have h32 : (4294967295 : Nat) = 2 ^ 32 - 1 := by norm_num
  apply Nat.eq_of_testBit_eq
  intro j
  simp only [Nat.testBit_and, Nat.testBit_xor, h32, Nat.testBit_two_pow_sub_one,
    Nat.testBit_shiftLeft, Nat.testBit_shiftRight]
  by_cases hjbig : j < 32
  · by_cases hj : m ≤ j
    · have h1 : m + (j - m) = j := by omega
      have h2 : ¬j < m := by omega
      simp [hj, hjbig, h2, h1]
    · have h2 : j < m := by omega
      simp [hj, hjbig, h2]
  · have hsf : s.testBit j = false := by
      apply Nat.testBit_lt_two_pow
      calc s < 2 ^ 32 := hs
      _ ≤ 2 ^ j := Nat.pow_le_pow_right (by norm_num) (by omega)
    by_cases hj : m ≤ j
    · have h1 : m + (j - m) = j := by omega
      simp [hj, h1, hsf]
    · simp [hj, hsf]

theorem shiftLeft_shiftRight_self (x m : Nat) : (x <<< m) >>> m = x := by
  rw [Nat.shiftLeft_eq, Nat.shiftRight_eq_div_pow]
  exact Nat.mul_div_cancel x (pow_pos (by norm_num) m)

theorem qmarks_mul4 : ∀ k, qmarks (4 * k) = List.replicate k '?'
  | 0 => rfl
  | k + 1 => by
    have h4 : 4 * (k + 1) = 4 * k + 4 := by ring
    rw [h4]
    show '?' :: qmarks (4 * k) = _
    rw [qmarks_mul4 k]
    rfl

theorem shiftRight28_eq_zero {s : Nat} (h : s ≤ 0x10FFFF) : s >>> 28 = 0 := by
  rw [Nat.shiftRight_eq_div_pow]
  apply Nat.div_eq_of_lt
  calc s ≤ 0x10FFFF := h
  _ < 2 ^ 28 := by norm_num

/-! ### The three output shapes of the serializer -/

theorem toCssChars_single (s : Nat) :
    unicodeRangeToCssChars ⟨s, s⟩ = 'U' :: '+' :: toHexChars s := by
  simp [unicodeRangeToCssChars]

theorem toCssChars_wild (s e : Nat) (hne : s ≠ e)
    (hc : s &&& (2 ^ (findShiftAux s e 6 + 4) - 1) = 0 ∧
      e &&& (2 ^ (findShiftAux s e 6 + 4) - 1) = 2 ^ (findShiftAux s e 6 + 4) - 1)
    (hs32 : s < 2 ^ 32) :
    unicodeRangeToCssChars ⟨s, e⟩ =
      'U' :: '+' :: ((if s >>> (findShiftAux s e 6 + 4) = 0 then []
        else toHexChars (s >>> (findShiftAux s e 6 + 4))) ++
          qmarks (findShiftAux s e 6 + 4)) := by
  have hrm : (1 <<< (findShiftAux s e 6 + 4)) - 1 = 2 ^ (findShiftAux s e 6 + 4) - 1 := by
    rw [Nat.one_shiftLeft]
  have hstart : (s &&& (4294967295 ^^^ (2 ^ (findShiftAux s e 6 + 4) - 1))) >>>
      (findShiftAux s e 6 + 4) = s >>> (findShiftAux s e 6 + 4) := by
    rw [and_compl_mask s _ hs32, shiftLeft_shiftRight_self]
  simp only [unicodeRangeToCssChars]
  rw [if_pos hne, hrm, if_pos hc, hstart]
  by_cases hz : s >>> (findShiftAux s e 6 + 4) = 0
  · simp [hz]
  · simp [hz]

theorem toCssChars_plain (s e : Nat) (hne : s ≠ e)
    (hc : ¬(s &&& (2 ^ (findShiftAux s e 6 + 4) - 1) = 0 ∧
      e &&& (2 ^ (findShiftAux s e 6 + 4) - 1) = 2 ^ (findShiftAux s e 6 + 4) - 1)) :
    unicodeRangeToCssChars ⟨s, e⟩ = 'U' :: '+' :: (toHexChars s ++ '-' :: toHexChars e) := by
  have hrm : (1 <<< (findShiftAux s e 6 + 4)) - 1 = 2 ^ (findShiftAux s e 6 + 4) - 1 := by
    rw [Nat.one_shiftLeft]
  simp only [unicodeRangeToCssChars]
  rw [if_pos hne, hrm, if_neg hc, if_pos (Ne.symm hne)]
  simp

/-! ### Evaluating the parser on each output shape -/

theorem isHexDigit_dash : isHexDigit '-' = false := by decide

theorem isHexDigit_qmark : isHexDigit '?' = false := by decide

theorem parseUnicodeRange_mk_U (body : List Char) :
    parseUnicodeRange (String.mk ('U' :: '+' :: body)) =
      match parseURBody body with
      | some r => if r.start ≤ r.«end» ∧ r.«end» ≤ 0x10FFFF then some r else none
      | none => none := rfl

theorem parseURBody_single (v : Nat) : parseURBody (toHexChars v) = some ⟨v, v⟩ := by
  have hall := toHexChars_all_hex v
  have htw : (toHexChars v).takeWhile isHexDigit = toHexChars v := by
    have h := takeWhile_append_of_all (toHexChars v) [] hall
    simpa using h
  have hdw : (toHexChars v).dropWhile isHexDigit = [] := by
    have h := dropWhile_append_of_all (toHexChars v) [] hall
    simpa using h
  simp only [parseURBody]
  rw [htw, hdw, parseHexAux_toHexChars v]
  simp [toHexChars_ne_nil v]

theorem parseURBody_pair (v w : Nat) :
    parseURBody (toHexChars v ++ '-' :: toHexChars w) = some ⟨v, w⟩ := by
  have hallv := toHexChars_all_hex v
  have hallw := toHexChars_all_hex w
  have htw : (toHexChars v ++ '-' :: toHexChars w).takeWhile isHexDigit = toHexChars v := by
    rw [takeWhile_append_of_all _ _ hallv, takeWhile_cons_of_false _ isHexDigit_dash]
    simp
  have hdw : (toHexChars v ++ '-' :: toHexChars w).dropWhile isHexDigit =
      '-' :: toHexChars w := by
    rw [dropWhile_append_of_all _ _ hallv, dropWhile_cons_of_false _ isHexDigit_dash]
  simp only [parseURBody]
  rw [htw, hdw, parseHexAux_toHexChars v]
  have hq : (('-' :: toHexChars w).all (· == '?')) = false := by simp
  simp [hq, toHexChars_ne_nil w, hallw, parseHexAux_toHexChars w]

theorem parseURBody_wild (v k : Nat) (hk : 1 ≤ k) :
    parseURBody ((if v = 0 then [] else toHexChars v) ++ List.replicate k '?') =
      some ⟨v * 16 ^ k, v * 16 ^ k + (16 ^ k - 1)⟩ := by
  obtain ⟨k0, rfl⟩ : ∃ k0, k = k0 + 1 := ⟨k - 1, by omega⟩
  have hall : (if v = 0 then [] else toHexChars v).all isHexDigit = true := by
    by_cases hv : v = 0
    · simp [hv]
    · simpa [hv] using toHexChars_all_hex v
  have hrep : List.replicate (k0 + 1) '?' = '?' :: List.replicate k0 '?' :=
    List.replicate_succ '?' k0
  have htw : ((if v = 0 then [] else toHexChars v) ++
      List.replicate (k0 + 1) '?').takeWhile isHexDigit =
      (if v = 0 then [] else toHexChars v) := by
    rw [takeWhile_append_of_all _ _ hall, hrep, takeWhile_cons_of_false _ isHexDigit_qmark]
    simp
  have hdw : ((if v = 0 then [] else toHexChars v) ++
      List.replicate (k0 + 1) '?').dropWhile isHexDigit = List.replicate (k0 + 1) '?' := by
    rw [dropWhile_append_of_all _ _ hall, hrep, dropWhile_cons_of_false _ isHexDigit_qmark]
  have hv : parseHexAux (if v = 0 then [] else toHexChars v) 0 = some v := by
    by_cases h : v = 0
    · simp [h, parseHexAux]
    · simpa [h] using parseHexAux_toHexChars v
  simp only [parseURBody]
  rw [htw, hdw, hv]
  have hq : (List.replicate (k0 + 1) '?').all (· == '?') = true := by
    simp [List.all_eq_true, List.mem_replicate]
  simp [hq]

/-! ### Main theorems for the unicode-range claims -/

/-- Helper facts for the wildcard branch of the serializer, shared by the
round-trip and refinement theorems: the prefix agrees between `start` and
`end`, and both reconstruct from the prefix and the mask. -/
theorem wild_branch_values (s e : Nat) (hse : s ≤ e) (he : e ≤ 0x10FFFF)
    (hc : s &&& (2 ^ (findShiftAux s e 6 + 4) - 1) = 0 ∧
      e &&& (2 ^ (findShiftAux s e 6 + 4) - 1) = 2 ^ (findShiftAux s e 6 + 4) - 1) :
    (s >>> (findShiftAux s e 6 + 4)) * 2 ^ (findShiftAux s e 6 + 4) = s ∧
      (s >>> (findShiftAux s e 6 + 4)) * 2 ^ (findShiftAux s e 6 + 4) +
        (2 ^ (findShiftAux s e 6 + 4) - 1) = e := by
  have hs : s ≤ 0x10FFFF := le_trans hse he
  have hsmod : s % 2 ^ (findShiftAux s e 6 + 4) = 0 := by
    rw [← Nat.and_pow_two_sub_one_eq_mod]
    exact hc.1
  have hemod : e % 2 ^ (findShiftAux s e 6 + 4) = 2 ^ (findShiftAux s e 6 + 4) - 1 := by
    rw [← Nat.and_pow_two_sub_one_eq_mod]
    exact hc.2
  have h28 : s >>> (4 * 6 + 4) = e >>> (4 * 6 + 4) := by
    have h1 : s >>> 28 = 0 := shiftRight28_eq_zero hs
    have h2 : e >>> 28 = 0 := shiftRight28_eq_zero he
    norm_num [h1, h2]
  have hpre : s >>> (findShiftAux s e 6 + 4) = e >>> (findShiftAux s e 6 + 4) :=
    findShiftAux_shiftRight_eq s e 6 h28
  have hsdiv : s >>> (findShiftAux s e 6 + 4) = s / 2 ^ (findShiftAux s e 6 + 4) :=
    Nat.shiftRight_eq_div_pow s _
  have hediv : e >>> (findShiftAux s e 6 + 4) = e / 2 ^ (findShiftAux s e 6 + 4) :=
    Nat.shiftRight_eq_div_pow e _
  have hds := Nat.div_add_mod s (2 ^ (findShiftAux s e 6 + 4))
  have hde := Nat.div_add_mod e (2 ^ (findShiftAux s e 6 + 4))
  constructor
  · rw [hsdiv]
    exact Nat.div_mul_cancel (Nat.dvd_of_mod_eq_zero hsmod)
  · rw [hpre, hediv]
    calc e / 2 ^ (findShiftAux s e 6 + 4) * 2 ^ (findShiftAux s e 6 + 4) +
        (2 ^ (findShiftAux s e 6 + 4) - 1)
        = 2 ^ (findShiftAux s e 6 + 4) * (e / 2 ^ (findShiftAux s e 6 + 4)) +
          e % 2 ^ (findShiftAux s e 6 + 4) := by
          rw [Nat.mul_comm, hemod]
    _ = e := Nat.div_add_mod e _

/-- Every valid pair round-trips through serialize-then-parse, through
every branch of the serializer (single code point, wildcard-compressed,
and plain range forms). -/
theorem unicodeRange_serialize_parse (s e : Nat) (hse : s ≤ e) (he : e ≤ 0x10FFFF) :
    parseUnicodeRange (unicodeRangeToCss ⟨s, e⟩) = some ⟨s, e⟩ := by
  have hs : s ≤ 0x10FFFF := le_trans hse he
  by_cases heq : s = e
  · subst heq
    rw [unicodeRangeToCss, toCssChars_single, parseUnicodeRange_mk_U, parseURBody_single]
    simp [hs]
  · by_cases hc : s &&& (2 ^ (findShiftAux s e 6 + 4) - 1) = 0 ∧
        e &&& (2 ^ (findShiftAux s e 6 + 4) - 1) = 2 ^ (findShiftAux s e 6 + 4) - 1
    · obtain ⟨j, hj⟩ := findShiftAux_dvd s e 6
      have hs32 : s < 2 ^ 32 := by
        calc s ≤ 0x10FFFF := hs
        _ < 2 ^ 32 := by norm_num
      rw [unicodeRangeToCss, toCssChars_wild s e heq hc hs32, parseUnicodeRange_mk_U]
      have hm4 : findShiftAux s e 6 + 4 = 4 * (j + 1) := by omega
      have h16 : (16 : Nat) ^ (j + 1) = 2 ^ (findShiftAux s e 6 + 4) := by
        rw [hm4, show (16 : Nat) = 2 ^ 4 by norm_num, ← pow_mul]
      have hq : qmarks (findShiftAux s e 6 + 4) = List.replicate (j + 1) '?' := by
        rw [hm4, qmarks_mul4]
      rw [hq, parseURBody_wild (s >>> (findShiftAux s e 6 + 4)) (j + 1) (by omega)]
      obtain ⟨hv1, hv2⟩ := wild_branch_values s e hse he hc
      rw [h16, hv2, hv1]
      simp [hse, he]
    · rw [unicodeRangeToCss, toCssChars_plain s e heq hc, parseUnicodeRange_mk_U,
        parseURBody_pair]
      simp [hse, he]

theorem specShift_eq_findShift (s e : Nat) (hne : s ≠ e) (hs : s < 2 ^ 28) (he : e < 2 ^ 28) :
    specShift s e = findShiftAux s e 6 + 4 := by
  have hxor : s ^^^ e < 2 ^ 28 := Nat.xor_lt_two_pow hs he
  have h := findShiftAux_eq_log2 s e hne 6 (by
    have h28 : (2 : Nat) ^ (4 * (6 + 1)) = 2 ^ 28 := by norm_num
    rw [h28]
    exact hxor)
  rw [specShift, h]

/-- The serializer agrees with the claim's wording of the compression
condition and of both output forms, for every valid non-degenerate range. -/
theorem unicodeRangeToCss_eq_spec (s e : Nat) (hse : s ≤ e) (hne : s ≠ e)
    (he : e ≤ 0x10FFFF) : unicodeRangeToCss ⟨s, e⟩ = unicodeRangeSpecCss s e := by
  have hs : s ≤ 0x10FFFF := le_trans hse he
  have hs28 : s < 2 ^ 28 := by
    calc s ≤ 0x10FFFF := hs
    _ < 2 ^ 28 := by norm_num
  have he28 : e < 2 ^ 28 := by
    calc e ≤ 0x10FFFF := he
    _ < 2 ^ 28 := by norm_num
  have hp := specShift_eq_findShift s e hne hs28 he28
  have hs32 : s < 2 ^ 32 := by
    calc s ≤ 0x10FFFF := hs
    _ < 2 ^ 32 := by norm_num
  rw [unicodeRangeToCss]
  simp only [unicodeRangeSpecCss, hp]
  by_cases hc : s % 2 ^ (findShiftAux s e 6 + 4) = 0 ∧
      e % 2 ^ (findShiftAux s e 6 + 4) = 2 ^ (findShiftAux s e 6 + 4) - 1
  · have hc' : s &&& (2 ^ (findShiftAux s e 6 + 4) - 1) = 0 ∧
        e &&& (2 ^ (findShiftAux s e 6 + 4) - 1) = 2 ^ (findShiftAux s e 6 + 4) - 1 := by
      rw [Nat.and_pow_two_sub_one_eq_mod, Nat.and_pow_two_sub_one_eq_mod]
      exact hc
    rw [toCssChars_wild s e hne hc' hs32, if_pos hc]
    obtain ⟨j, hj⟩ := findShiftAux_dvd s e 6
    have hm4 : findShiftAux s e 6 + 4 = 4 * (j + 1) := by omega
    have hq : qmarks (findShiftAux s e 6 + 4) = List.replicate (j + 1) '?' := by
      rw [hm4, qmarks_mul4]
    have hdiv : (findShiftAux s e 6 + 4) / 4 = j + 1 := by omega
    rw [hq, hdiv]
    simp
  · have hc' : ¬(s &&& (2 ^ (findShiftAux s e 6 + 4) - 1) = 0 ∧
        e &&& (2 ^ (findShiftAux s e 6 + 4) - 1) = 2 ^ (findShiftAux s e 6 + 4) - 1) := by
      rw [Nat.and_pow_two_sub_one_eq_mod, Nat.and_pow_two_sub_one_eq_mod]
      exact hc
    rw [toCssChars_plain s e hne hc', if_neg hc]
    simp

/-- Claim C1: for every range with `start ≠ end` (under the documented
invariant `start ≤ end ≤ 0x10FFFF`), the serializer emits the wildcard
form exactly under the claim's prefix-completeness condition at `p'` (one
window above the most significant differing hex digit), with the stated
shape, and the plain `U+hex(start)-hex(end)` form otherwise; in
particular `(0x0, 0xFF)` gives `U+??` and `(0x41, 0x5A)` gives
`U+41-5A`. -/
theorem fontface_c1_wildcard_compression :
    (∀ s e : Nat, s ≤ e → s ≠ e → e ≤ 0x10FFFF →
      unicodeRangeToCss ⟨s, e⟩ = unicodeRangeSpecCss s e) ∧
    unicodeRangeToCss ⟨0x0, 0xFF⟩ = "U+??" ∧
    unicodeRangeToCss ⟨0x41, 0x5A⟩ = "U+41-5A" :=
  ⟨fun s e hse hne he => unicodeRangeToCss_eq_spec s e hse hne he, by decide, by decide⟩

theorem fontface_c1_witness :
    ((0x600 : Nat) ≤ 0x6FF ∧ (0x600 : Nat) ≠ 0x6FF ∧ (0x6FF : Nat) ≤ 0x10FFFF) ∧
      unicodeRangeToCss ⟨0x600, 0x6FF⟩ = unicodeRangeSpecCss 0x600 0x6FF :=
  ⟨⟨by norm_num, by norm_num, by norm_num⟩,
    fontface_c1_wildcard_compression.1 0x600 0x6FF (by norm_num) (by norm_num) (by norm_num)⟩

/-- Claim C2: for every `0 ≤ s ≤ e ≤ 0x10FFFF`, parsing the serialized
form of the pair yields the pair back exactly, including the
wildcard-compressed forms and the single-code-point form (for which
`(0x41, 0x41)` serializes to `U+41`). -/
theorem fontface_c2_unicode_range_roundtrip :
    (∀ s e : Nat, s ≤ e → e ≤ 0x10FFFF →
      parseUnicodeRange (unicodeRangeToCss ⟨s, e⟩) = some ⟨s, e⟩) ∧
    unicodeRangeToCss ⟨0x41, 0x41⟩ = "U+41" :=
  ⟨fun s e hse he => unicodeRange_serialize_parse s e hse he, by decide⟩

theorem fontface_c2_witness :
    ((0x25 : Nat) ≤ 0x1FF ∧ (0x1FF : Nat) ≤ 0x10FFFF) ∧
      parseUnicodeRange (unicodeRangeToCss ⟨0x25, 0x1FF⟩) = some ⟨0x25, 0x1FF⟩ :=
  ⟨⟨by norm_num, by norm_num⟩,
    fontface_c2_unicode_range_roundtrip.1 0x25 0x1FF (by norm_num) (by norm_num)⟩

/-! ### Claim theorems for the source-list and descriptor parsers -/

/-- Claim C3, what the code actually does: on tech-before-format the
format attempt fails (the next function is `tech`), so `format` stays
`None`, the location check is skipped, and `Source::parse` succeeds with
`format(woff2)` left unconsumed — as one src-list item this is an
`UnexpectedToken` failure, never the claimed `AtRuleBodyInvalid`.  The
reordered tokens succeed with both fields, as the claim says. -/
theorem fontface_c3_tech_order_behavior :
    Source.parse ⟨techFirstToks, ⟨1, 0⟩⟩ =
      .ok (.url ⟨⟨"f"⟩, none, [.variations]⟩,
        ⟨[(.function "format" [(.ident "woff2", ⟨1, 39⟩)], ⟨1, 33⟩)], ⟨1, 13⟩⟩) ∧
    parse_entirely Source.parse ⟨techFirstToks, ⟨1, 0⟩⟩ =
      .error ⟨.unexpectedToken (.function "format" [(.ident "woff2", ⟨1, 39⟩)]), ⟨1, 13⟩⟩ ∧
    Source.parse ⟨formatFirstToks, ⟨1, 0⟩⟩ =
      .ok (.url ⟨⟨"f"⟩, some .WOFF2, [.variations]⟩, ⟨[], ⟨1, 28⟩⟩) :=
  ⟨rfl, rfl, rfl⟩

/-- Claim C4: the descriptor dispatcher is total — every name and token
state yields exactly one descriptor; an unknown name captures the raw
tokens verbatim as a `Custom` descriptor from the pre-attempt state; and
a failing typed parse (here a malformed `font-weight` value) falls back
to the same verbatim capture. -/
theorem fontface_c4_dispatcher_total :
    (∀ name st, ∃ p st2, parse_value name st = .ok (p, st2)) ∧
    (∀ name st, asciiLower name ∉ ["src", "font-family", "font-weight",
        "font-style", "font-stretch", "unicode-range"] →
      parse_value name st = .ok (.custom ⟨name, st.toks⟩, ⟨[], st.loc⟩)) ∧
    parse_value "font-weight" ⟨[(.ident "oops", ⟨1, 14⟩)], ⟨1, 0⟩⟩ =
      .ok (.custom ⟨"font-weight", [(.ident "oops", ⟨1, 14⟩)]⟩, ⟨[], ⟨1, 0⟩⟩) := by
  refine ⟨?_, ?_, rfl⟩
  · intro name st
    simp only [parse_value, CustomProperty.parse]
    repeat' split
    all_goals exact ⟨_, _, rfl⟩
  · intro name st h
    simp only [List.mem_cons, List.not_mem_nil, or_false, not_or] at h
    obtain ⟨h1, h2, h3, h4, h5, h6⟩ := h
    simp [parse_value, CustomProperty.parse, h1, h2, h3, h4, h5, h6]

theorem fontface_c4_witness :
    (asciiLower "ascent-override" ∉ ["src", "font-family", "font-weight",
        "font-style", "font-stretch", "unicode-range"]) ∧
      parse_value "ascent-override" ⟨[(.num 90, ⟨1, 17⟩)], ⟨1, 0⟩⟩ =
        .ok (.custom ⟨"ascent-override", [(.num 90, ⟨1, 17⟩)]⟩, ⟨[], ⟨1, 0⟩⟩) :=
  ⟨by decide, fontface_c4_dispatcher_total.2.1 "ascent-override" ⟨[(.num 90, ⟨1, 17⟩)], ⟨1, 0⟩⟩
    (by decide)⟩

/-- Claim C5: `Source::parse` dispatch — the URL form is attempted
first; its result is returned on success, an `AtRuleBodyInvalid` failure
is propagated unchanged, and any other failure rewinds to the original
state and requires a `local(...)` function wrapping a family name.  The
concrete conjuncts exercise each path: a plain URL, a `local(...)`
source, and a token that is neither. -/
theorem fontface_c5_source_dispatch :
    (∀ st, Source.parse st =
      match UrlSource.parse st with
      | .ok (u, st') => .ok (.url u, st')
      | .error ⟨.atRuleBodyInvalid, l⟩ => .error ⟨.atRuleBodyInvalid, l⟩
      | .error _ =>
        match expect_function_matching "local" st with
        | .error e2 => .error e2
        | .ok (args, st1) =>
          match parse_nested_block args st1 FontFamily.parse with
          | .error e2 => .error e2
          | .ok (fam, st2) => .ok (.local fam, st2)) ∧
    Source.parse ⟨[(.urlTok "f", ⟨1, 5⟩)], ⟨1, 0⟩⟩ =
      .ok (.url ⟨⟨"f"⟩, none, []⟩, ⟨[], ⟨1, 5⟩⟩) ∧
    Source.parse ⟨[(.function "local" [(.ident "MyFont", ⟨1, 12⟩)], ⟨1, 7⟩)], ⟨1, 0⟩⟩ =
      .ok (.local ⟨"MyFont"⟩, ⟨[], ⟨1, 7⟩⟩) ∧
    Source.parse ⟨[(.ident "abc", ⟨1, 4⟩)], ⟨1, 0⟩⟩ =
      .error ⟨.unexpectedToken (.ident "abc"), ⟨1, 0⟩⟩ :=
  ⟨fun _ => rfl, rfl, rfl, rfl⟩

/-- Claim C6: `FontTechnology::parse` accepts only identifier tokens — an
identifier maps through the case-insensitive 11-keyword table with no
fallback, any other identifier (e.g. `bogus`) and any non-identifier
token (e.g. a string literal) is an `UnexpectedToken` error. -/
theorem fontface_c6_tech_closed_set :
    (∀ s l rest loc0, FontTechnology.parse ⟨(.ident s, l) :: rest, loc0⟩ =
      (match techLookup (asciiLower s) with
       | some t => .ok (t, ⟨rest, l⟩)
       | none => .error ⟨.unexpectedToken (.ident s), loc0⟩)) ∧
    (∀ s l rest loc0, FontTechnology.parse ⟨(.str s, l) :: rest, loc0⟩ =
      .error ⟨.unexpectedToken (.str s), loc0⟩) ∧
    FontTechnology.parse ⟨[(.ident "bogus", ⟨1, 5⟩)], ⟨1, 0⟩⟩ =
      .error ⟨.unexpectedToken (.ident "bogus"), ⟨1, 0⟩⟩ ∧
    FontTechnology.parse ⟨[(.str "variations", ⟨1, 5⟩)], ⟨1, 0⟩⟩ =
      .error ⟨.unexpectedToken (.str "variations"), ⟨1, 0⟩⟩ := by
  refine ⟨?_, fun s l rest loc0 => rfl, rfl, rfl⟩
  intro s l rest loc0
  simp only [FontTechnology.parse, pNext, techLookup, techKeywords]
  by_cases h1 : asciiLower s = "variations"
  · simp [h1]
  by_cases h2 : asciiLower s = "palettes"
  · simp [h1, h2]
  by_cases h3 : asciiLower s = "incremental"
  · simp [h1, h2, h3]
  by_cases h4 : asciiLower s = "features-opentype"
  · simp [h1, h2, h3, h4]
  by_cases h5 : asciiLower s = "features-aat"
  · simp [h1, h2, h3, h4, h5]
  by_cases h6 : asciiLower s = "features-graphite"
  · simp [h1, h2, h3, h4, h5, h6]
  by_cases h7 : asciiLower s = "color-colrv0"
  · simp [h1, h2, h3, h4, h5, h6, h7]
  by_cases h8 : asciiLower s = "color-colrv1"
  · simp [h1, h2, h3, h4, h5, h6, h7, h8]
  by_cases h9 : asciiLower s = "color-svg"
  · simp [h1, h2, h3, h4, h5, h6, h7, h8, h9]
  by_cases h10 : asciiLower s = "color-sbix"
  · simp [h1, h2, h3, h4, h5, h6, h7, h8, h9, h10]
  by_cases h11 : asciiLower s = "color-cbdt"
  · simp [h1, h2, h3, h4, h5, h6, h7, h8, h9, h10, h11]
  · simp [h1, h2, h3, h4, h5, h6, h7, h8, h9, h10, h11]

/-! ### Claim theorems for the serializers -/

/-- Claim C7: `FontFormat` parsing maps an identifier or string token
case-insensitively through the 7-keyword table, any other text becoming
the verbatim fallback variant; serialization emits the canonical
lowercase keyword (or the fallback text) always as a quoted string
literal. -/
theorem fontface_c7_format_codec :
    (∀ s l rest loc0, FontFormat.parse ⟨(.ident s, l) :: rest, loc0⟩ =
      .ok ((formatLookup (asciiLower s)).getD (.string s), ⟨rest, l⟩)) ∧
    (∀ s l rest loc0, FontFormat.parse ⟨(.str s, l) :: rest, loc0⟩ =
      .ok ((formatLookup (asciiLower s)).getD (.string s), ⟨rest, l⟩)) ∧
    (∀ f, ∃ body, FontFormat.toCss f = "\"" ++ body ++ "\"") ∧
    FontFormat.toCss .WOFF = "\"woff\"" ∧
    FontFormat.toCss .WOFF2 = "\"woff2\"" ∧
    FontFormat.toCss .TrueType = "\"truetype\"" ∧
    FontFormat.toCss .OpenType = "\"opentype\"" ∧
    FontFormat.toCss .EmbeddedOpenType = "\"embedded-opentype\"" ∧
    FontFormat.toCss .Collection = "\"collection\"" ∧
    FontFormat.toCss .SVG = "\"svg\"" ∧
    (∀ s, FontFormat.toCss (.string s) = serialize_string s) ∧
    FontFormat.toCss (.string "foo") = "\"foo\"" := by
  have hparse : ∀ s : String, ∀ st' : PState,
      (if asciiLower s == "woff" then (.ok (.WOFF, st') : Except PErr (FontFormat × PState))
        else if asciiLower s == "woff2" then .ok (.WOFF2, st')
        else if asciiLower s == "truetype" then .ok (.TrueType, st')
        else if asciiLower s == "opentype" then .ok (.OpenType, st')
        else if asciiLower s == "embedded-opentype" then .ok (.EmbeddedOpenType, st')
        else if asciiLower s == "collection" then .ok (.Collection, st')
        else if asciiLower s == "svg" then .ok (.SVG, st')
        else .ok (.string s, st')) =
      .ok ((formatLookup (asciiLower s)).getD (.string s), st') := by
    intro s st'
    simp only [formatLookup, formatKeywords]
    by_cases h1 : asciiLower s = "woff"
    · simp [h1]
    by_cases h2 : asciiLower s = "woff2"
    · simp [h1, h2]
    by_cases h3 : asciiLower s = "truetype"
    · simp [h1, h2, h3]
    by_cases h4 : asciiLower s = "opentype"
    · simp [h1, h2, h3, h4]
    by_cases h5 : asciiLower s = "embedded-opentype"
    · simp [h1, h2, h3, h4, h5]
    by_cases h6 : asciiLower s = "collection"
    · simp [h1, h2, h3, h4, h5, h6]
    by_cases h7 : asciiLower s = "svg"
    · simp [h1, h2, h3, h4, h5, h6, h7]
    · simp [h1, h2, h3, h4, h5, h6, h7]
  refine ⟨?_, ?_, ?_, rfl, rfl, rfl, rfl, rfl, rfl, rfl, fun s => rfl, rfl⟩
  · intro s l rest loc0
    exact hparse s ⟨rest, l⟩
  · intro s l rest loc0
    exact hparse s ⟨rest, l⟩
  · intro f
    exact ⟨String.mk ((FontFormat.keywordString f).data.foldr
      (fun c acc => cssStringEscape c ++ acc) []), rfl⟩

theorem techLoop_eq_sepJoin (ts : List FontTechnology) :
    ∀ i len, i + ts.length = len →
      techLoop len i ts = sepJoin "," (ts.map FontTechnology.toCss) := by
  induction ts with
  | nil => intro i len _; rfl
  | cons t rest ih =>
    intro i len hlen
    cases rest with
    | nil =>
      have hle : len - 1 = i := by simp at hlen; omega
      simp [techLoop, sepJoin, hle]
    | cons t2 rest2 =>
      have hlt : len - 1 ≠ i := by simp at hlen; omega
      have ihh := ih (i + 1) len (by simp at hlen ⊢; omega)
      rw [show techLoop len i (t :: t2 :: rest2) =
        FontTechnology.toCss t ++ (if len - 1 ≠ i then "," else "") ++
          techLoop len (i + 1) (t2 :: rest2) from rfl, if_pos hlt, ihh]
      simp [sepJoin]

/-- Claim C9: a `UrlSource` with no format and no technologies
serializes to exactly its URL serialization; the `format(...)` fragment
appears exactly when the format is present, and the `tech(...)` fragment
exactly when the technology list is non-empty. -/
theorem fontface_c9_urlsource_fragments :
    (∀ u cfg, UrlSource.toCss ⟨u, none, []⟩ cfg = Url.toCss u) ∧
    (∀ u f cfg, UrlSource.toCss ⟨u, some f, []⟩ cfg =
      Url.toCss u ++ whitespace cfg ++ "format(" ++ FontFormat.toCss f ++ ")") ∧
    (∀ u t ts cfg, UrlSource.toCss ⟨u, none, t :: ts⟩ cfg =
      Url.toCss u ++ whitespace cfg ++ "tech(" ++
        sepJoin "," ((t :: ts).map FontTechnology.toCss) ++ ")") := by
  refine ⟨?_, ?_, ?_⟩
  · intro u cfg
    simp [UrlSource.toCss]
  · intro u f cfg
    apply String.ext
    simp [UrlSource.toCss]
  · intro u t ts cfg
    have hloop := techLoop_eq_sepJoin (t :: ts) 0 (ts.length + 1) (by simp)
    apply String.ext
    simp [UrlSource.toCss, hloop]

theorem rulePropsLoop_minify (ind : Nat) (props : List FontFaceProperty) :
    ∀ i len, i + props.length = len →
      rulePropsLoop ⟨true, ind⟩ len i props =
        sepJoin ";" (props.map (fun p => FontFaceProperty.toCss p ⟨true, ind⟩)) := by
  induction props with
  | nil => intro i len _; rfl
  | cons p rest ih =>
    intro i len hlen
    cases rest with
    | nil =>
      have hle : len - 1 = i := by simp at hlen; omega
      simp [rulePropsLoop, sepJoin, newline, hle]
    | cons p2 rest2 =>
      have hlt : i ≠ len - 1 := by simp at hlen; omega
      have ihh := ih (i + 1) len (by simp at hlen ⊢; omega)
      rw [show rulePropsLoop ⟨true, ind⟩ len i (p :: p2 :: rest2) =
        newline ⟨true, ind⟩ ++ FontFaceProperty.toCss p ⟨true, ind⟩ ++
          (if i ≠ len - 1 ∨ (⟨true, ind⟩ : PrinterCfg).minify = false then ";" else "") ++
          rulePropsLoop ⟨true, ind⟩ len (i + 1) (p2 :: rest2) from rfl,
        if_pos (Or.inl hlt), ihh]
      simp [sepJoin, newline]

theorem rulePropsLoop_pretty (ind len : Nat) (props : List FontFaceProperty) :
    ∀ i, rulePropsLoop ⟨false, ind⟩ len i props =
      strJoin (props.map fun p =>
        newline ⟨false, ind⟩ ++ FontFaceProperty.toCss p ⟨false, ind⟩ ++ ";") := by
  induction props with
  | nil => intro i; rfl
  | cons p rest ih =>
    intro i
    rw [show rulePropsLoop ⟨false, ind⟩ len i (p :: rest) =
      newline ⟨false, ind⟩ ++ FontFaceProperty.toCss p ⟨false, ind⟩ ++
        (if i ≠ len - 1 ∨ (⟨false, ind⟩ : PrinterCfg).minify = false then ";" else "") ++
        rulePropsLoop ⟨false, ind⟩ len (i + 1) rest from rfl,
      if_pos (Or.inr rfl), ih (i + 1)]
    simp [strJoin, String.append_assoc]

/-- Claim C8: rule serialization keeps the stored descriptor order with a
semicolon terminating each descriptor, except that minified output omits
only the final semicolon (the one before the closing brace); with three
descriptors the first two separators remain. -/
theorem fontface_c8_rule_separators :
    (∀ props loc ind, FontFaceRule.toCss ⟨props, loc⟩ ⟨true, ind⟩ =
      "@font-face\x7b" ++
        sepJoin ";" (props.map (fun p => FontFaceProperty.toCss p ⟨true, ind + 1⟩)) ++ "\x7d") ∧
    (∀ p1 p2 p3 loc ind, FontFaceRule.toCss ⟨[p1, p2, p3], loc⟩ ⟨true, ind⟩ =
      "@font-face\x7b" ++ FontFaceProperty.toCss p1 ⟨true, ind + 1⟩ ++ ";" ++
        FontFaceProperty.toCss p2 ⟨true, ind + 1⟩ ++ ";" ++
        FontFaceProperty.toCss p3 ⟨true, ind + 1⟩ ++ "\x7d") ∧
    (∀ props loc ind, FontFaceRule.toCss ⟨props, loc⟩ ⟨false, ind⟩ =
      "@font-face \x7b" ++
        strJoin (props.map fun p =>
          newline ⟨false, ind + 1⟩ ++ FontFaceProperty.toCss p ⟨false, ind + 1⟩ ++ ";") ++
        newline ⟨false, ind⟩ ++ "\x7d") := by
  have hmin : ∀ props loc ind, FontFaceRule.toCss ⟨props, loc⟩ ⟨true, ind⟩ =
      "@font-face\x7b" ++
        sepJoin ";" (props.map (fun p => FontFaceProperty.toCss p ⟨true, ind + 1⟩)) ++ "\x7d" := by
    intro props loc ind
    have hloop := rulePropsLoop_minify (ind + 1) props 0 props.length (by omega)
    apply String.ext
    simp [FontFaceRule.toCss, whitespace, newline, hloop]
  refine ⟨hmin, ?_, ?_⟩
  · intro p1 p2 p3 loc ind
    rw [hmin [p1, p2, p3] loc ind]
    apply String.ext
    simp [sepJoin]
  · intro props loc ind
    have hloop := rulePropsLoop_pretty (ind + 1) props.length props 0
    apply String.ext
    simp [FontFaceRule.toCss, whitespace, hloop, newline]

/-- Claim C10: the rule serializer on an empty descriptor list is total
and emits just the at-rule keyword with an empty brace block — the
per-descriptor loop contributes nothing. -/
theorem fontface_c10_empty_rule :
    (∀ loc cfg, FontFaceRule.toCss ⟨[], loc⟩ cfg =
      "@font-face" ++ whitespace cfg ++ "\x7b" ++ newline cfg ++ "\x7d") ∧
    (∀ loc, FontFaceRule.toCss ⟨[], loc⟩ ⟨true, 0⟩ = "@font-face\x7b\x7d") ∧
    (∀ loc, FontFaceRule.toCss ⟨[], loc⟩ ⟨false, 0⟩ = "@font-face \x7b\n\x7d") := by
  have h1 : ∀ loc cfg, FontFaceRule.toCss ⟨[], loc⟩ cfg =
      "@font-face" ++ whitespace cfg ++ "\x7b" ++ newline cfg ++ "\x7d" := by
    intro loc cfg
    apply String.ext
    simp [FontFaceRule.toCss, rulePropsLoop]
  refine ⟨h1, ?_, ?_⟩
  · intro loc
    rw [h1]
    decide
  · intro loc
    rw [h1]
    decide

end FontFace
